import Mathlib

/-!
Verification of the lexicon-based sentiment classifier in `Lab-5/Task_2.py`.

The embedding models text as `List Char`.  Python's `str.lower()` is modelled
by `Char.toLower` character-wise, and the word-character class of the
tokenizing regular expression (Python `\w`) is modelled as ASCII alphanumerics
plus the underscore; every lexicon entry is ASCII, so this is exact on the
alphabet the program distinguishes.  The `while True:` phrase-masking loop is
embedded with an explicit iteration bound (`fuel`): the loop advances its
start offset by at least one character per iteration (the phrase keys are
nonempty), so `length + 1` iterations always suffice and the bound is never
the reason the loop stops.
-/

set_option maxHeartbeats 1000000

namespace Sentiment

/-- The apostrophe character (codepoint 39). -/
def apos : Char := Char.ofNat 39

/-- `POSITIVE_WORDS` from `Task_2.py` lines 18-39. -/
def POSITIVE_WORDS : List (List Char) :=
  ["good", "great", "excellent", "amazing", "delicious", "happy", "love",
   "like", "wonderful", "fantastic", "nice", "pleasant", "satisfied", "tasty",
   "fresh", "awesome", "enjoy", "enjoyed", "enjoyable", "delightful"].map
    String.toList

/-- `NEGATIVE_WORDS` from `Task_2.py` lines 41-60. -/
def NEGATIVE_WORDS : List (List Char) :=
  ["bad", "terrible", "awful", "horrible", "disgusting", "sad", "hate",
   "dislike", "worst", "poor", "nasty", "unpleasant", "unsatisfied", "stale",
   "bland", "cold", "overcooked", "undercooked"].map String.toList

/-- `NEGATIONS` from `Task_2.py` line 62: not, no, never, isn't, wasn't,
aren't, don't, doesn't, didn't, can't, won't, n't.  The contracted forms are
spelled out with `apos`. -/
def NEGATIONS : List (List Char) :=
  ["not".toList, "no".toList, "never".toList,
   "isn".toList ++ [apos] ++ "t".toList,
   "wasn".toList ++ [apos] ++ "t".toList,
   "aren".toList ++ [apos] ++ "t".toList,
   "don".toList ++ [apos] ++ "t".toList,
   "doesn".toList ++ [apos] ++ "t".toList,
   "didn".toList ++ [apos] ++ "t".toList,
   "can".toList ++ [apos] ++ "t".toList,
   "won".toList ++ [apos] ++ "t".toList,
   "n".toList ++ [apos] ++ "t".toList]

/-- The token `n't`, the last member of `NEGATIONS`. -/
def ntToken : List Char := "n".toList ++ [apos] ++ "t".toList

/-- `PHRASE_SENTIMENT` from `Task_2.py` lines 66-69: the single phrase
override "good taste" with weight -2, in declaration order. -/
def PHRASE_SENTIMENT : List (List Char × Int) := [("good taste".toList, -2)]

/-! ## Tokenizer (`_tokenize`, line 72-73): `re.findall` of `[\w\x27]+`
between word boundaries over the lowercased text.

A `\b` word boundary holds between a word character and a non-word character
(apostrophes are not word characters).  Consequently a match of the pattern
is, inside each maximal run of word-characters-and-apostrophes that contains
at least one word character, exactly the segment from the run's first word
character to its last word character; runs made of apostrophes alone match
nothing. -/

/-- A word character of the tokenizing pattern: alphanumeric or underscore. -/
def isWordChar (c : Char) : Bool := c.isAlphanum || c == '_'

/-- A character the tokenizing pattern can consume: word character or
apostrophe. -/
def isTokChar (c : Char) : Bool := isWordChar c || c == apos

/-- Restrict a run of token characters to the segment from its first word
character to its last word character (dropping leading and trailing
apostrophes). -/
def trimApos (run : List Char) : List Char :=
  ((run.dropWhile fun c => !isWordChar c).reverse.dropWhile
      fun c => !isWordChar c).reverse

/-- Emit the token of one finished run (the accumulator holds the run
reversed): a run with no word character yields nothing. -/
def emitRun (acc : List Char) (rest : List (List Char)) : List (List Char) :=
  if acc.reverse.any isWordChar then trimApos acc.reverse :: rest else rest

/-- Left-to-right scan producing the regex matches: accumulate maximal runs
of token characters, emit each via `emitRun`. -/
def tokScan : List Char → List Char → List (List Char)
  | acc, [] => emitRun acc []
  | acc, c :: cs =>
    if isTokChar c then tokScan (c :: acc) cs
    else emitRun acc (tokScan [] cs)

/-- `_tokenize` (line 72-73): lowercase the input, then emit the regex
matches. -/
def _tokenize (text : List Char) : List (List Char) :=
  tokScan [] (text.map Char.toLower)

/-! ## Phrase masking (`analyze_sentiment` lines 92-103) -/

/-- Scan helper for `str.find`: the first position `i + k` at which `pat` is
a prefix of the `k`-th suffix of `l`. -/
def findAux (pat : List Char) : List Char → Nat → Option Nat
  | [], i => if pat.isEmpty then some i else none
  | c :: cs, i =>
    if pat.isPrefixOf (c :: cs) then some i else findAux pat cs (i + 1)

/-- Python `s.find(pat, start)`: least index `idx ≥ start` where `pat` occurs
as a substring of `s`, `none` when there is no occurrence (only used with
nonempty `pat`). -/
def strFind (s pat : List Char) (start : Nat) : Option Nat :=
  findAux pat (s.drop start) start

/-- Replace the span `[idx, idx + n)` of `s` by blanks, as in line 100-102:
`working_text[:idx] + " " * len(phrase) + working_text[idx+len(phrase):]`. -/
def mask (s : List Char) (idx n : Nat) : List Char :=
  s.take idx ++ List.replicate n ' ' ++ s.drop (idx + n)

/-- The `while True:` loop of lines 94-103 for one phrase, with an explicit
iteration bound: find the next occurrence from `start`, add the weight, mask
the span, resume just after it.  Returns the accumulated weight and the
masked text. -/
def phraseLoopAux (phrase : List Char) (w : Int) :
    Nat → List Char → Nat → Int × List Char
  | 0, s, _ => (0, s)
  | fuel + 1, s, start =>
    match strFind s phrase start with
    | none => (0, s)
    | some idx =>
      let r := phraseLoopAux phrase w fuel (mask s idx phrase.length)
        (idx + phrase.length)
      (w + r.1, r.2)

/-- The masking loop for one phrase, run from offset 0 with the
always-sufficient iteration bound. -/
def phraseLoop (phrase : List Char) (w : Int) (s : List Char) :
    Int × List Char :=
  phraseLoopAux phrase w (s.length + 1) s 0

/-- The `for phrase, phrase_weight in PHRASE_SENTIMENT.items():` loop of
line 92: phrases processed in declaration order, each loop running on the
text as masked by the previous ones. -/
def applyPhrases : List (List Char × Int) → List Char → Int × List Char
  | [], s => (0, s)
  | (p, w) :: rest, s =>
    let r := phraseLoop p w s
    let r2 := applyPhrases rest r.2
    (r.1 + r2.1, r2.2)

/-! ## Specification-side occurrence scan (for the phrase-override claims):
the indices found by the left-to-right repeated scan on a fixed text, each
scan resuming just after the end of the previous match. -/

/-- The match positions of the left-to-right repeated scan over `s`. -/
def occsAux (phrase : List Char) : Nat → List Char → Nat → List Nat
  | 0, _, _ => []
  | fuel + 1, s, start =>
    match strFind s phrase start with
    | none => []
    | some idx => idx :: occsAux phrase fuel s (idx + phrase.length)

/-- All match positions of `phrase` in `s` under the resume-after-match
scan. -/
def occs (phrase s : List Char) : List Nat := occsAux phrase (s.length + 1) s 0

/-- Mask every span in the list (left to right). -/
def maskAll (phrase : List Char) (s : List Char) (l : List Nat) : List Char :=
  l.foldl (fun t i => mask t i phrase.length) s

/-! ## Token scorer (`analyze_sentiment` lines 107-133) -/

/-- The per-call scan state of the token loop: running score, remaining
negation window, sticky after-"but" flag. -/
structure ScanState where
  score : Int
  negate_window : Nat
  after_but : Bool
deriving DecidableEq

/-- `word_delta` before flips (lines 119-123): +1 for a positive word, -1
for a negative word, 0 otherwise. -/
def baseDelta (token : List Char) : Int :=
  if token ∈ POSITIVE_WORDS then 1
  else if token ∈ NEGATIVE_WORDS then -1
  else 0

/-- One iteration of the token loop (lines 110-133), parameterized by the
negation set. -/
def scanStepWith (negs : List (List Char)) (st : ScanState)
    (token : List Char) : ScanState :=
  if token = "but".toList then
    { st with after_but := true }
  else if token ∈ negs then
    { st with negate_window := 3 }
  else
    let d0 := baseDelta token
    let d1 := if 0 < st.negate_window then -d0 else d0
    let d2 := if st.after_but then d1 * 2 else d1
    { score := if d0 ≠ 0 then st.score + d2 else st.score,
      negate_window :=
        if 0 < st.negate_window then st.negate_window - 1
        else st.negate_window,
      after_but := st.after_but }

/-- One iteration of the token loop with the program's `NEGATIONS`. -/
def scanStep : ScanState → List Char → ScanState := scanStepWith NEGATIONS

/-- The whole token loop. -/
def scoreTokensWith (negs : List (List Char)) (tokens : List (List Char))
    (init : ScanState) : ScanState :=
  tokens.foldl (scanStepWith negs) init

/-- The final `if score > 0 ...` of lines 135-139. -/
def labelOf (score : Int) : String :=
  if score > 0 then "positive" else if score < 0 then "negative"
  else "neutral"

/-- The score computed by `analyze_sentiment` on a non-blank input:
lowercase, apply phrase overrides, tokenize the masked text, run the token
loop starting from the phrase score. -/
def computeScoreWith (negs : List (List Char)) (text : List Char) : Int :=
  let working_text := text.map Char.toLower
  let r := applyPhrases PHRASE_SENTIMENT working_text
  (scoreTokensWith negs (_tokenize r.2) ⟨r.1, 0, false⟩).score

/-- `analyze_sentiment` (lines 76-139), parameterized by the negation set. -/
def analyzeWith (negs : List (List Char)) (text : List Char) : String :=
  if text.isEmpty || text.all Char.isWhitespace then "neutral"
  else labelOf (computeScoreWith negs text)

/-- The score of `analyze_sentiment` with the program's `NEGATIONS`. -/
def computeScore (text : List Char) : Int := computeScoreWith NEGATIONS text

/-- `analyze_sentiment` with the program's `NEGATIONS`. -/
def analyze_sentiment (text : List Char) : String :=
  analyzeWith NEGATIONS text

/-! ## Specification-side tokenizer description (for the refinement claim
about the tokenizer): the maximal runs of word characters and apostrophes of
the lowercased input, in order, following the spec's words. -/

/-- Accumulator-based splitter into maximal runs of token characters. -/
def runScan : List Char → List Char → List (List Char)
  | acc, [] => if acc.isEmpty then [] else [acc.reverse]
  | acc, c :: cs =>
    if isTokChar c then runScan (c :: acc) cs
    else if acc.isEmpty then runScan [] cs
    else acc.reverse :: runScan [] cs

/-- The spec's description of the token sequence: the maximal runs of word
characters and apostrophes of the lowercased input, in order. -/
def specMaximalRuns (text : List Char) : List (List Char) :=
  runScan [] (text.map Char.toLower)

/-- The regex match produced by one maximal run: nothing when the run has no
word character, otherwise the run trimmed to its outermost word
characters. -/
def tokOfRun (run : List Char) : Option (List Char) :=
  if run.any isWordChar then some (trimApos run) else none

/-! ### Sanity checks on concrete scenarios of the specification -/

example : analyze_sentiment ("not good".toList) = "negative" := by decide

example : computeScore ("the good taste of it".toList) = -2 := by decide

example : computeScore ("good taste good taste".toList) = -4 := by decide

example : analyze_sentiment ("good".toList) = "positive" := by decide

example :
    analyze_sentiment
      ("the food is delicious but the service was bad".toList) =
      "negative" := by decide

example : _tokenize ([apos] ++ "a".toList) = ["a".toList] := by decide

example : _tokenize (ntToken ++ " good".toList) =
    [ntToken, "good".toList] := by decide

/-! ## Facts about the concrete lexicon -/

/-- No negation marker is the contrastive conjunction. -/
lemma mem_NEGATIONS_ne_but : ∀ t ∈ NEGATIONS, t ≠ "but".toList := by decide

/-- A positive word is neither a negation marker nor the conjunction. -/
lemma mem_POSITIVE_not_special :
    ∀ t ∈ POSITIVE_WORDS, t ∉ NEGATIONS ∧ t ≠ "but".toList := by decide

/-- A negative word is neither a negation marker, the conjunction, nor a
positive word. -/
lemma mem_NEGATIVE_not_special :
    ∀ t ∈ NEGATIVE_WORDS,
      t ∉ NEGATIONS ∧ t ≠ "but".toList ∧ t ∉ POSITIVE_WORDS := by decide

/-- A base delta of +1 means the token is a positive word. -/
lemma baseDelta_eq_one {tok : List Char} (h : baseDelta tok = 1) :
    tok ∈ POSITIVE_WORDS := by
  by_cases h1 : tok ∈ POSITIVE_WORDS
  · exact h1
  · by_cases h2 : tok ∈ NEGATIVE_WORDS <;> simp [baseDelta, h1, h2] at h

/-- A base delta of -1 means the token is a negative word. -/
lemma baseDelta_eq_neg_one {tok : List Char} (h : baseDelta tok = -1) :
    tok ∈ NEGATIVE_WORDS := by
  by_cases h1 : tok ∈ POSITIVE_WORDS
  · simp [baseDelta, h1] at h
  · by_cases h2 : tok ∈ NEGATIVE_WORDS
    · exact h2
    · simp [baseDelta, h1, h2] at h

/-! ## Scorer step lemmas -/

/-- The after-"but" flag after one step: set by the conjunction token, kept
otherwise. -/
lemma scanStepWith_after_but (negs : List (List Char)) (st : ScanState)
    (tok : List Char) :
    (scanStepWith negs st tok).after_but =
      (tok = "but".toList || st.after_but) := by
  unfold scanStepWith
  by_cases h1 : tok = ['b', 'u', 't'] <;> simp [h1]
  by_cases h2 : tok ∈ negs <;> simp [h2]

/-- The after-"but" flag is never cleared by the rest of the scan. -/
lemma scoreTokensWith_after_but_mono (negs : List (List Char))
    (tokens : List (List Char)) :
    ∀ st : ScanState, st.after_but = true →
      (scoreTokensWith negs tokens st).after_but = true := by
  induction tokens with
  | nil => intro st h; exact h
  | cons t ts ih =>
    intro st h
    have hstep : (scanStepWith negs st t).after_but = true := by
      rw [scanStepWith_after_but]; simp [h]
    simpa [scoreTokensWith, List.foldl] using ih (scanStepWith negs st t) hstep

/-- C2: a negation-marker token leaves the score and the after-"but" flag
unchanged and sets the negation window to 3, overwriting any window already
in progress (in particular the marker does not decrement the window it just
set); and every token that is neither the conjunction "but" nor a negation
marker decrements an active window by exactly one, whether or not it carries
nonzero polarity. -/
theorem C2_negation_marker (st : ScanState) (tok : List Char) :
    (tok ∈ NEGATIONS →
      scanStep st tok = { st with negate_window := 3 }) ∧
    (tok ∉ NEGATIONS → tok ≠ "but".toList → 0 < st.negate_window →
      (scanStep st tok).negate_window = st.negate_window - 1) := by
  constructor
  · intro hmem
    have hne : tok ≠ ['b', 'u', 't'] := by
      simpa using mem_NEGATIONS_ne_but tok hmem
    simp [scanStep, scanStepWith, hne, hmem]
  · intro hmem hne hwin
    have hne' : tok ≠ ['b', 'u', 't'] := by simpa using hne
    simp [scanStep, scanStepWith, hne', hmem, hwin]

/-- Witness for C2 at concrete inputs: the marker "never" on a state with an
active window of 1, and the non-marker token "xyz" on a window of 2. -/
theorem C2_negation_marker_witness :
    scanStep ⟨5, 1, true⟩ ("never".toList) = ⟨5, 3, true⟩ ∧
    (scanStep ⟨5, 2, false⟩ ("xyz".toList)).negate_window = 1 := by
  constructor
  · exact (C2_negation_marker ⟨5, 1, true⟩ ("never".toList)).1 (by decide)
  · exact (C2_negation_marker ⟨5, 2, false⟩ ("xyz".toList)).2
      (by decide) (by decide) (by decide)

/-- C3: the "but" token only sets the sticky after-"but" flag — it changes
neither the score nor the negation window; the flag, once set, survives the
whole remaining scan; and every later token with nonzero base polarity
contributes its (possibly negation-flipped) delta doubled. -/
theorem C3_after_but (st : ScanState) (tok : List Char)
    (tokens : List (List Char)) :
    (scanStep st ("but".toList) = { st with after_but := true }) ∧
    (st.after_but = true →
      (scoreTokensWith NEGATIONS tokens st).after_but = true) ∧
    (st.after_but = true → tok ≠ "but".toList → tok ∉ NEGATIONS →
      baseDelta tok ≠ 0 →
      (scanStep st tok).score =
        st.score +
          (if 0 < st.negate_window then -(baseDelta tok) else baseDelta tok)
            * 2) := by
  refine ⟨?_, ?_, ?_⟩
  · simp [scanStep, scanStepWith]
  · exact fun h => scoreTokensWith_after_but_mono NEGATIONS tokens st h
  · intro hab hne hmem hd
    have hne' : tok ≠ ['b', 'u', 't'] := by simpa using hne
    simp [scanStep, scanStepWith, hne', hmem, hab, hd]

/-- Witness for C3 at concrete inputs: the sticky flag across a later scan,
and the doubled contribution of "bad" after "but" with no active window. -/
theorem C3_after_but_witness :
    scanStep ⟨0, 2, false⟩ ("but".toList) = ⟨0, 2, true⟩ ∧
    (scoreTokensWith NEGATIONS ["good".toList, "not".toList]
      ⟨0, 0, true⟩).after_but = true ∧
    (scanStep ⟨1, 0, true⟩ ("bad".toList)).score = 1 + -1 * 2 := by
  refine ⟨?_, ?_, ?_⟩
  · exact (C3_after_but ⟨0, 2, false⟩ [] []).1
  · exact (C3_after_but ⟨0, 0, true⟩ [] ["good".toList, "not".toList]).2.1
      (by decide)
  · have h := (C3_after_but ⟨1, 0, true⟩ ("bad".toList) []).2.2
      (by decide) (by decide) (by decide) (by decide)
    simpa [baseDelta] using h

/-- C4: negation flips before the after-"but" doubling: on a state with an
active negation window and the after-"but" flag set, a token of base delta +1
contributes exactly -2 and a token of base delta -1 contributes exactly +2. -/
theorem C4_flip_then_double (st : ScanState) (tok : List Char)
    (hw : 0 < st.negate_window) (hb : st.after_but = true) :
    (baseDelta tok = 1 → (scanStep st tok).score = st.score - 2) ∧
    (baseDelta tok = -1 → (scanStep st tok).score = st.score + 2) := by
  constructor
  · intro hd
    have hpos := baseDelta_eq_one hd
    obtain ⟨hmem, hne⟩ := mem_POSITIVE_not_special tok hpos
    have hne' : tok ≠ ['b', 'u', 't'] := by simpa using hne
    simp [scanStep, scanStepWith, hne', hmem, hw, hb, hd]
    ring
  · intro hd
    have hneg := baseDelta_eq_neg_one hd
    obtain ⟨hmem, hne, _⟩ := mem_NEGATIVE_not_special tok hneg
    have hne' : tok ≠ ['b', 'u', 't'] := by simpa using hne
    simp [scanStep, scanStepWith, hne', hmem, hw, hb, hd]

/-- Witness for C4: "good" (base +1) under window 2 and after-"but" yields
-2; "bad" (base -1) under the same state yields +2. -/
theorem C4_flip_then_double_witness :
    (scanStep ⟨10, 2, true⟩ ("good".toList)).score = 10 - 2 ∧
    (scanStep ⟨10, 2, true⟩ ("bad".toList)).score = 10 + 2 := by
  constructor
  · exact (C4_flip_then_double ⟨10, 2, true⟩ ("good".toList)
      (by decide) (by decide)).1 (by decide)
  · exact (C4_flip_then_double ⟨10, 2, true⟩ ("bad".toList)
      (by decide) (by decide)).2 (by decide)

/-! ## Classifier -/

/-- The label is always one of the three strings. -/
lemma labelOf_cases (s : Int) :
    labelOf s = "positive" ∨ labelOf s = "negative" ∨
      labelOf s = "neutral" := by
  unfold labelOf
  by_cases h1 : s > 0
  · simp [h1]
  · by_cases h2 : s < 0 <;> simp [h1, h2]

/-- C6: the final label is "positive" for a positive score, "negative" for a
negative score, "neutral" for a zero score; and any input made only of
whitespace (including the empty input) is classified "neutral" by the early
return, which agrees with the label of a zero score. -/
theorem C6_label_and_blank (s : Int) (text : List Char) :
    (0 < s → labelOf s = "positive") ∧
    (s < 0 → labelOf s = "negative") ∧
    (s = 0 → labelOf s = "neutral") ∧
    ((∀ c ∈ text, c.isWhitespace) →
      analyze_sentiment text = "neutral" ∧ labelOf 0 = "neutral") := by
  refine ⟨?_, ?_, ?_, ?_⟩
  · intro h; simp [labelOf, h]
  · intro h
    have h2 : ¬ s > 0 := by omega
    simp [labelOf, h, h2]
  · intro h; simp [labelOf, h]
  · intro h
    have hall : text.all Char.isWhitespace = true :=
      List.all_eq_true.mpr (fun c hc => h c hc)
    refine ⟨?_, by simp [labelOf]⟩
    simp [analyze_sentiment, analyzeWith, hall]

/-- Witness for C6 at concrete inputs: scores 3, -3, 0 and a two-space
input. -/
theorem C6_label_and_blank_witness :
    labelOf 3 = "positive" ∧ labelOf (-3) = "negative" ∧
    labelOf 0 = "neutral" ∧ analyze_sentiment ("  ".toList) = "neutral" := by
  refine ⟨?_, ?_, ?_, ?_⟩
  · exact (C6_label_and_blank 3 []).1 (by decide)
  · exact (C6_label_and_blank (-3) []).2.1 (by decide)
  · exact (C6_label_and_blank 0 []).2.2.1 (by decide)
  · exact ((C6_label_and_blank 0 ("  ".toList)).2.2.2 (by decide)).1

/-- C8: the classifier is total — on every input (empty, unicode or
punctuation-only included) it returns exactly one of the three labels and
signals no failure. -/
theorem C8_classify_total (text : List Char) :
    analyze_sentiment text = "positive" ∨
    analyze_sentiment text = "negative" ∨
    analyze_sentiment text = "neutral" := by
  unfold analyze_sentiment analyzeWith
  by_cases h : (text.isEmpty || text.all Char.isWhitespace) = true
  · simp [h]
  · simp only [h, if_false, Bool.false_eq_true]
    exact labelOf_cases _

/-! ## Substring search: basic facts -/

/-- A Boolean prefix is no longer than the list it starts. -/
lemma isPrefixOf_length_le :
    ∀ {pat l : List Char}, pat.isPrefixOf l = true → pat.length ≤ l.length
  | [], _, _ => by simp
  | _ :: _, [], h => by simp [List.isPrefixOf] at h
  | a :: as, b :: bs, h => by
    simp only [List.isPrefixOf, Bool.and_eq_true] at h
    simpa using isPrefixOf_length_le h.2

/-- The index returned by the scan is at least the offset it started at. -/
lemma findAux_some_le {pat : List Char} : ∀ {l : List Char} {i j : Nat},
    findAux pat l i = some j → i ≤ j := by
  intro l
  induction l with
  | nil =>
    intro i j h
    unfold findAux at h
    split at h
    · obtain rfl := Option.some.inj h; exact Nat.le_refl _
    · cases h
  | cons c cs ih =>
    intro i j h
    unfold findAux at h
    split at h
    · obtain rfl := Option.some.inj h; exact Nat.le_refl _
    · exact Nat.le_of_succ_le (ih h)

/-- The scan only answers positions where the pattern occurs. -/
lemma findAux_some_pre {pat : List Char} : ∀ {l : List Char} {i j : Nat},
    findAux pat l i = some j → pat.isPrefixOf (l.drop (j - i)) = true := by
  intro l
  induction l with
  | nil =>
    intro i j h
    unfold findAux at h
    split at h
    · obtain rfl := Option.some.inj h
      rename_i hc
      have : pat = [] := by simpa using hc
      simp [this, List.isPrefixOf]
    · cases h
  | cons c cs ih =>
    intro i j h
    unfold findAux at h
    split at h
    · obtain rfl := Option.some.inj h
      rename_i hc
      simpa using hc
    · have hle : i + 1 ≤ j := findAux_some_le h
      have hrec := ih h
      have harith : j - i = (j - (i + 1)) + 1 := by omega
      rw [harith, List.drop_succ_cons]
      exact hrec

/-- Python `find` from `start`: a hit is at or after `start` and is an
occurrence of the pattern. -/
lemma strFind_some {s pat : List Char} {start idx : Nat}
    (h : strFind s pat start = some idx) :
    start ≤ idx ∧ pat.isPrefixOf (s.drop idx) = true := by
  have h1 : start ≤ idx := findAux_some_le h
  refine ⟨h1, ?_⟩
  have h2 := findAux_some_pre h
  rwa [List.drop_drop, Nat.add_comm, Nat.sub_add_cancel h1] at h2

/-- A hit of a nonempty pattern fits inside the text. -/
lemma strFind_some_bound {s pat : List Char} {start idx : Nat}
    (hp : pat ≠ []) (h : strFind s pat start = some idx) :
    idx + pat.length ≤ s.length := by
  have h2 := (strFind_some h).2
  have h3 := isPrefixOf_length_le h2
  have h4 : 0 < pat.length := List.length_pos.mpr hp
  simp only [List.length_drop] at h3
  omega

/-- The scan never looks before its start offset: it only depends on the
dropped suffix, so texts agreeing from `start` on search identically. -/
lemma strFind_congr {s t pat : List Char} {start : Nat}
    (h : s.drop start = t.drop start) :
    strFind s pat start = strFind t pat start := by
  unfold strFind
  rw [h]

/-! ## Masking: basic facts -/

/-- Masking a span that fits preserves the length. -/
lemma mask_length {s : List Char} {idx n : Nat} (h : idx + n ≤ s.length) :
    (mask s idx n).length = s.length := by
  simp [mask]
  omega

/-- Masking a zero-length span changes nothing. -/
lemma mask_zero (s : List Char) (idx : Nat) : mask s idx 0 = s := by
  simp [mask]

/-- Masking does not touch the text after the masked span. -/
lemma mask_drop_eq {s : List Char} {idx n : Nat} (h : idx + n ≤ s.length) :
    (mask s idx n).drop (idx + n) = s.drop (idx + n) := by
  have hlen : (s.take idx ++ List.replicate n ' ').length = idx + n := by
    simp
    omega
  calc (mask s idx n).drop (idx + n)
      = ((s.take idx ++ List.replicate n ' ') ++ s.drop (idx + n)).drop
          (idx + n) := by simp [mask]
    _ = s.drop (idx + n) := List.drop_left' hlen

/-- Position-wise reading of a mask: blanks inside the span, the original
character outside it. -/
lemma mask_get {s : List Char} {idx n : Nat} (h : idx + n ≤ s.length)
    (j : Nat) :
    (mask s idx n)[j]? = if idx ≤ j ∧ j < idx + n then some ' '
      else s[j]? := by
  have htake : (s.take idx).length = idx := by simp; omega
  have hlen1 : (s.take idx ++ List.replicate n ' ').length = idx + n := by
    simp
    omega
  rw [mask, List.getElem?_append, hlen1]
  by_cases h2 : j < idx + n
  · rw [if_pos h2, List.getElem?_append, htake]
    by_cases h1 : j < idx
    · rw [if_pos h1, if_neg (by omega), List.getElem?_take_of_lt h1]
    · rw [if_neg h1, if_pos ⟨by omega, h2⟩]
      exact List.getElem?_replicate_of_lt (by omega)
  · rw [if_neg h2, if_neg (by omega), List.getElem?_drop]
    have harith : idx + n + (j - (idx + n)) = j := by omega
    rw [harith]

/-! ## The masking loop against the specification-side occurrence scan -/

/-- The occurrence scan only depends on the text from its start offset on. -/
lemma occsAux_congr (phrase : List Char) : ∀ (fuel : Nat) (s t : List Char)
    (start : Nat), s.drop start = t.drop start →
    occsAux phrase fuel s start = occsAux phrase fuel t start := by
  intro fuel
  induction fuel with
  | zero => intro s t start _; rfl
  | succ f ih =>
    intro s t start h
    have hf : strFind s phrase start = strFind t phrase start :=
      strFind_congr h
    unfold occsAux
    rw [hf]
    cases hcase : strFind t phrase start with
    | none => rfl
    | some idx =>
      dsimp only
      have hle : start ≤ idx := (strFind_some hcase).1
      have hdrop : s.drop (idx + phrase.length) =
          t.drop (idx + phrase.length) := by
        have harith : idx + phrase.length =
            start + (idx + phrase.length - start) := by omega
        rw [harith, ← List.drop_drop, ← List.drop_drop, h]
      rw [ih s t (idx + phrase.length) hdrop]

/-- The masking loop of the code, unrolled against the specification-side
occurrence scan on the unmasked text: it adds the weight once per found
occurrence and blanks exactly the found spans (masking never disturbs later
searches because each search only reads from its resume offset on). -/
lemma phraseLoopAux_eq (phrase : List Char) (w : Int) : ∀ (fuel : Nat)
    (s : List Char) (start : Nat),
    phraseLoopAux phrase w fuel s start =
      (w * ((occsAux phrase fuel s start).length : Int),
        (occsAux phrase fuel s start).foldl
          (fun t i => mask t i phrase.length) s) := by
  intro fuel
  induction fuel with
  | zero => intro s start; simp [phraseLoopAux, occsAux]
  | succ f ih =>
    intro s start
    unfold phraseLoopAux occsAux
    cases hcase : strFind s phrase start with
    | none => simp
    | some idx =>
      dsimp only
      have hdrop : (mask s idx phrase.length).drop (idx + phrase.length) =
          s.drop (idx + phrase.length) := by
        by_cases hp : phrase = []
        · subst hp; simp [mask_zero]
        · exact mask_drop_eq (strFind_some_bound hp hcase)
      have hocc := occsAux_congr phrase f (mask s idx phrase.length) s
        (idx + phrase.length) hdrop
      rw [ih (mask s idx phrase.length) (idx + phrase.length), hocc]
      refine Prod.ext ?_ ?_
      · simp only [List.length_cons]
        push_cast
        ring
      · simp [List.foldl_cons]

/-- The masking loop as run by the program (start offset 0, iteration bound
`length + 1`). -/
lemma phraseLoop_eq (phrase : List Char) (w : Int) (s : List Char) :
    phraseLoop phrase w s =
      (w * ((occs phrase s).length : Int),
        maskAll phrase s (occs phrase s)) := by
  unfold phraseLoop occs maskAll
  exact phraseLoopAux_eq phrase w (s.length + 1) s 0

/-- Every scanned occurrence lies at or after the scan's start offset and
fits inside the text. -/
lemma occsAux_bounds (phrase : List Char) (hp : phrase ≠ []) : ∀ (fuel : Nat)
    (s : List Char) (start : Nat), ∀ i ∈ occsAux phrase fuel s start,
    start ≤ i ∧ i + phrase.length ≤ s.length := by
  intro fuel
  induction fuel with
  | zero => intro s start i hi; simp [occsAux] at hi
  | succ f ih =>
    intro s start i hi
    unfold occsAux at hi
    cases hcase : strFind s phrase start with
    | none => rw [hcase] at hi; cases hi
    | some idx =>
      rw [hcase] at hi
      rcases List.mem_cons.mp hi with rfl | hi2
      · exact ⟨(strFind_some hcase).1, strFind_some_bound hp hcase⟩
      · have h2 := ih s (idx + phrase.length) i hi2
        have h1 := (strFind_some hcase).1
        exact ⟨by omega, h2.2⟩

/-- Folding further masks over the text never un-blanks a position. -/
lemma maskAll_keeps_space (phrase : List Char) : ∀ (l : List Nat)
    (s : List Char) (j : Nat),
    (∀ i ∈ l, i + phrase.length ≤ s.length) → s[j]? = some ' ' →
    (maskAll phrase s l)[j]? = some ' ' := by
  intro l
  induction l with
  | nil => intro s j _ hs; simpa [maskAll] using hs
  | cons i0 rest ih =>
    intro s j hb hs
    have hb0 : i0 + phrase.length ≤ s.length := hb i0 (by simp)
    have hlen := mask_length hb0
    have hb2 : ∀ i ∈ rest, i + phrase.length ≤
        (mask s i0 phrase.length).length := by
      intro i hi; rw [hlen]; exact hb i (List.mem_cons_of_mem _ hi)
    have hs2 : (mask s i0 phrase.length)[j]? = some ' ' := by
      rw [mask_get hb0 j]
      split
      · rfl
      · exact hs
    simpa [maskAll, List.foldl_cons] using
      ih (mask s i0 phrase.length) j hb2 hs2

/-- Every position inside any scanned span is blank after the whole fold. -/
lemma maskAll_space (phrase : List Char) : ∀ (l : List Nat) (s : List Char),
    (∀ i ∈ l, i + phrase.length ≤ s.length) →
    ∀ i ∈ l, ∀ j : Nat, i ≤ j → j < i + phrase.length →
    (maskAll phrase s l)[j]? = some ' ' := by
  intro l
  induction l with
  | nil => intro s _ i hi; cases hi
  | cons i0 rest ih =>
    intro s hb i hi j hij hjlt
    have hb0 : i0 + phrase.length ≤ s.length := hb i0 (by simp)
    have hlen := mask_length hb0
    have hb2 : ∀ i2 ∈ rest, i2 + phrase.length ≤
        (mask s i0 phrase.length).length := by
      intro i2 hi2; rw [hlen]; exact hb i2 (List.mem_cons_of_mem _ hi2)
    rcases List.mem_cons.mp hi with rfl | hi2
    · have hs2 : (mask s i phrase.length)[j]? = some ' ' := by
        rw [mask_get hb0 j]
        exact if_pos ⟨hij, hjlt⟩
      simpa [maskAll, List.foldl_cons] using
        maskAll_keeps_space phrase rest (mask s i phrase.length) j hb2 hs2
    · simpa [maskAll, List.foldl_cons] using
        ih (mask s i0 phrase.length) hb2 i hi2 j hij hjlt

/-- Masking preserves the text's length across the whole fold. -/
lemma maskAll_length (phrase : List Char) : ∀ (l : List Nat) (s : List Char),
    (∀ i ∈ l, i + phrase.length ≤ s.length) →
    (maskAll phrase s l).length = s.length := by
  intro l
  induction l with
  | nil => intro s _; rfl
  | cons i0 rest ih =>
    intro s hb
    have hb0 : i0 + phrase.length ≤ s.length := hb i0 (by simp)
    have hlen := mask_length hb0
    have hb2 : ∀ i ∈ rest, i + phrase.length ≤
        (mask s i0 phrase.length).length := by
      intro i hi; rw [hlen]; exact hb i (List.mem_cons_of_mem _ hi)
    calc (maskAll phrase s (i0 :: rest)).length
        = (maskAll phrase (mask s i0 phrase.length) rest).length := by
          simp [maskAll, List.foldl_cons]
      _ = (mask s i0 phrase.length).length := ih _ hb2
      _ = s.length := hlen

/-- C1: on every text, the masking loop for the declared phrase override
"good taste" (weight -2) adds the weight exactly once per occurrence found
by the left-to-right resume-after-match scan, returns the text with exactly
those spans blanked at unchanged length (so the words inside a matched span
are gone from what the tokenizer later sees), "the good taste of it" scores
-2 (and classifies negative), and "good taste good taste" matches twice for
a total of -4. -/
theorem C1_phrase_override (s : List Char) :
    phraseLoop ("good taste".toList) (-2) s =
      (-2 * ((occs ("good taste".toList) s).length : Int),
        maskAll ("good taste".toList) s (occs ("good taste".toList) s)) ∧
    ((phraseLoop ("good taste".toList) (-2) s).2).length = s.length ∧
    (∀ i ∈ occs ("good taste".toList) s, ∀ j : Nat, i ≤ j → j < i + 10 →
      ((phraseLoop ("good taste".toList) (-2) s).2)[j]? = some ' ') ∧
    computeScore ("the good taste of it".toList) = -2 ∧
    analyze_sentiment ("the good taste of it".toList) = "negative" ∧
    (occs ("good taste".toList) ("good taste good taste".toList)).length
      = 2 ∧
    computeScore ("good taste good taste".toList) = -4 := by
  have hp : ("good taste".toList : List Char) ≠ [] := by decide
  have hb := occsAux_bounds ("good taste".toList) hp (s.length + 1) s 0
  have hb2 : ∀ i ∈ occs ("good taste".toList) s,
      i + ("good taste".toList).length ≤ s.length :=
    fun i hi => (hb i hi).2
  refine ⟨phraseLoop_eq _ _ s, ?_, ?_, by decide, by decide, by decide,
    by decide⟩
  · rw [phraseLoop_eq]
    exact maskAll_length _ _ s hb2
  · intro i hi j hij hjlt
    rw [phraseLoop_eq]
    exact maskAll_space _ _ s hb2 i hi j hij
      (by simpa using hjlt)

/-- Witness for C1: the blank-span conjunct applied to the text
"good taste" itself, whose only occurrence is at index 0; position 3 of the
masked text is a blank. -/
theorem C1_phrase_override_witness :
    ((phraseLoop ("good taste".toList) (-2) ("good taste".toList)).2)[3]? =
      some ' ' :=
  (C1_phrase_override ("good taste".toList)).2.2.1 0 (by decide) 3
    (by decide) (by decide)

/-! ## Raw substring matching (no word boundaries) -/

/-- The scan from a fixed offset finds nothing exactly when the pattern is
nowhere a prefix of a suffix (nonempty patterns). -/
lemma findAux_none_iff {pat : List Char} (hp : pat ≠ []) :
    ∀ (l : List Char) (i : Nat), findAux pat l i = none ↔
      ∀ k, k < l.length → pat.isPrefixOf (l.drop k) = false := by
  intro l
  induction l with
  | nil =>
    intro i
    constructor
    · intro _ k hk; cases hk
    · intro _
      unfold findAux
      rw [if_neg (by simpa using hp)]
  | cons c cs ih =>
    intro i
    unfold findAux
    by_cases hpre : pat.isPrefixOf (c :: cs) = true
    · rw [if_pos hpre]
      constructor
      · intro h; cases h
      · intro h
        have h0 := h 0 (by simp)
        rw [List.drop_zero] at h0
        rw [hpre] at h0
        cases h0
    · rw [if_neg hpre]
      rw [ih (i + 1)]
      constructor
      · intro h k hk
        cases k with
        | zero =>
          rw [List.drop_zero]
          exact Bool.eq_false_iff.mpr hpre
        | succ k2 =>
          rw [List.drop_succ_cons]
          exact h k2 (by simpa using hk)
      · intro h k hk
        have h2 := h (k + 1) (by simpa using hk)
        rwa [List.drop_succ_cons] at h2

/-- The resume-after-match scan finds no occurrence exactly when the phrase
occurs nowhere as a raw substring. -/
lemma occs_eq_nil_iff {phrase s : List Char} (hp : phrase ≠ []) :
    occs phrase s = [] ↔
      ∀ k, k < s.length → phrase.isPrefixOf (s.drop k) = false := by
  unfold occs occsAux
  cases hcase : strFind s phrase 0 with
  | none =>
    dsimp only
    constructor
    · intro _
      have h2 : findAux phrase s 0 = none := by
        simpa [strFind] using hcase
      exact (findAux_none_iff hp s 0).mp h2
    · intro _; trivial
  | some idx =>
    dsimp only
    constructor
    · intro h; simp at h
    · intro h
      exfalso
      obtain ⟨_, hpre⟩ := strFind_some hcase
      have hbnd := strFind_some_bound hp hcase
      have hplen : 0 < phrase.length := List.length_pos.mpr hp
      have hfalse := h idx (by omega)
      rw [hpre] at hfalse
      cases hfalse

/-- C9: phrase-override matching is raw substring search on the lowercased
text with no word-boundary check: the scan is empty exactly when the phrase
occurs nowhere as a substring, and in "feelgood tastes" the characters
"good taste" straddling the word boundary are still matched at index 4,
scored -2, and blanked, leaving the fragments "feel" and "s" as tokens. -/
theorem C9_raw_substring (s : List Char) :
    (occs ("good taste".toList) s = [] ↔
      ∀ k, k < s.length →
        ("good taste".toList).isPrefixOf (s.drop k) = false) ∧
    occs ("good taste".toList) ("feelgood tastes".toList) = [4] ∧
    computeScore ("feelgood tastes".toList) = -2 ∧
    _tokenize ((applyPhrases PHRASE_SENTIMENT
      (("feelgood tastes".toList).map Char.toLower)).2) =
      ["feel".toList, "s".toList] ∧
    analyze_sentiment ("feelgood tastes".toList) = "negative" := by
  refine ⟨occs_eq_nil_iff (by decide), by decide, by decide, by decide,
    by decide⟩

/-- Witness for C9: by the characterization, "xyz" (which contains no
occurrence of the phrase) has an empty occurrence scan. -/
theorem C9_raw_substring_witness :
    occs ("good taste".toList) ("xyz".toList) = [] :=
  ((C9_raw_substring ("xyz".toList)).1).mpr (by decide)

/-! ## Plain scans: no marker, no conjunction, no phrase match -/

/-- A token that is neither a negation marker nor the conjunction adds its
base delta to the score and touches no other state when the window is
inactive and the flag unset. -/
lemma scanStep_plain (sc : Int) (tok : List Char)
    (hmem : tok ∉ NEGATIONS) (hne : tok ≠ "but".toList) :
    scanStep ⟨sc, 0, false⟩ tok = ⟨sc + baseDelta tok, 0, false⟩ := by
  have hne2 : tok ≠ ['b', 'u', 't'] := by simpa using hne
  by_cases hd : baseDelta tok = 0
  · simp [scanStep, scanStepWith, hne2, hmem, hd]
  · simp [scanStep, scanStepWith, hne2, hmem, hd]

/-- Over tokens free of negation markers and conjunctions, the scan from a
fresh state adds exactly (count of positive words) - (count of negative
words). -/
lemma scoreTokens_plain : ∀ tokens : List (List Char),
    (∀ tok ∈ tokens, tok ∉ NEGATIONS ∧ tok ≠ "but".toList) →
    ∀ sc : Int, scoreTokensWith NEGATIONS tokens ⟨sc, 0, false⟩ =
      ⟨sc + ((tokens.countP fun t => decide (t ∈ POSITIVE_WORDS)) : Int) -
        ((tokens.countP fun t => decide (t ∈ NEGATIVE_WORDS)) : Int),
        0, false⟩ := by
  intro tokens
  induction tokens with
  | nil => intro _ sc; simp [scoreTokensWith]
  | cons t ts ih =>
    intro h sc
    obtain ⟨hmem, hne⟩ := h t (by simp)
    have hrest : ∀ tok ∈ ts, tok ∉ NEGATIONS ∧ tok ≠ "but".toList :=
      fun tok htok => h tok (List.mem_cons_of_mem _ htok)
    calc scoreTokensWith NEGATIONS (t :: ts) ⟨sc, 0, false⟩
        = scoreTokensWith NEGATIONS ts (scanStep ⟨sc, 0, false⟩ t) := by
          simp [scoreTokensWith, List.foldl_cons, scanStep]
      _ = scoreTokensWith NEGATIONS ts ⟨sc + baseDelta t, 0, false⟩ := by
          rw [scanStep_plain sc t hmem hne]
      _ = ⟨sc + baseDelta t +
            ((ts.countP fun x => decide (x ∈ POSITIVE_WORDS)) : Int) -
            ((ts.countP fun x => decide (x ∈ NEGATIVE_WORDS)) : Int),
            0, false⟩ := ih hrest (sc + baseDelta t)
      _ = ⟨sc +
            (((t :: ts).countP fun x => decide (x ∈ POSITIVE_WORDS)) : Int) -
            (((t :: ts).countP fun x => decide (x ∈ NEGATIVE_WORDS)) : Int),
            0, false⟩ := by
          simp only [ScanState.mk.injEq, List.countP_cons]
          refine ⟨?_, trivial, trivial⟩
          by_cases hpos : t ∈ POSITIVE_WORDS
          · have hneg : t ∉ NEGATIVE_WORDS :=
              fun hn => (mem_NEGATIVE_not_special t hn).2.2 hpos
            simp [baseDelta, hpos, hneg]
            ring
          · by_cases hneg : t ∈ NEGATIVE_WORDS
            · simp [baseDelta, hpos, hneg]
              ring
            · simp [baseDelta, hpos, hneg]

/-- Whitespace is unchanged by lowercasing. -/
lemma whitespace_toLower {c : Char} (h : c.isWhitespace = true) :
    c.toLower = c := by
  simp [Char.isWhitespace] at h
  rcases h with ((h | h) | h) | h <;> subst h <;> decide

/-- Whitespace is not a token character. -/
lemma whitespace_not_tok {c : Char} (h : c.isWhitespace = true) :
    isTokChar c = false := by
  simp [Char.isWhitespace] at h
  rcases h with ((h | h) | h) | h <;> subst h <;> decide

/-- The token scan of a text with no token character is empty. -/
lemma tokScan_nil : ∀ l : List Char,
    (∀ c ∈ l, isTokChar c = false) → tokScan [] l = [] := by
  intro l
  induction l with
  | nil => intro _; simp [tokScan, emitRun]
  | cons c cs ih =>
    intro h
    have hc := h c (by simp)
    rw [tokScan, hc]
    simp only [Bool.false_eq_true, if_false, emitRun, List.reverse_nil,
      List.any_nil]
    exact ih fun c2 hc2 => h c2 (List.mem_cons_of_mem _ hc2)

/-- The tokenizer yields nothing on all-whitespace input. -/
lemma tokenize_whitespace {text : List Char}
    (h : ∀ c ∈ text, c.isWhitespace = true) :
    _tokenize (text.map Char.toLower) = [] := by
  unfold _tokenize
  apply tokScan_nil
  intro c2 hc2
  simp only [List.mem_map] at hc2
  obtain ⟨c0, hc0, rfl⟩ := hc2
  obtain ⟨c1, hc1, rfl⟩ := hc0
  rw [whitespace_toLower (h c1 hc1), whitespace_toLower (h c1 hc1)]
  exact whitespace_not_tok (h c1 hc1)

/-- C5: when the lowercased input has no phrase-override occurrence and its
tokens include no negation marker and no "but", the final score is exactly
(count of positive-word tokens) - (count of negative-word tokens), and the
returned label is the label of that score's sign. -/
theorem C5_plain_score (text : List Char)
    (hph : ∀ pw ∈ PHRASE_SENTIMENT, occs pw.1 (text.map Char.toLower) = [])
    (hneg : ∀ tok ∈ _tokenize (text.map Char.toLower), tok ∉ NEGATIONS)
    (hbut : ∀ tok ∈ _tokenize (text.map Char.toLower),
      tok ≠ "but".toList) :
    computeScore text =
      (((_tokenize (text.map Char.toLower)).countP
          fun t => decide (t ∈ POSITIVE_WORDS)) : Int) -
      (((_tokenize (text.map Char.toLower)).countP
          fun t => decide (t ∈ NEGATIVE_WORDS)) : Int) ∧
    analyze_sentiment text = labelOf (computeScore text) := by
  have hocc : occs ("good taste".toList) (text.map Char.toLower) = [] :=
    hph ("good taste".toList, -2) (by simp [PHRASE_SENTIMENT])
  have hloop : phraseLoop ("good taste".toList) (-2)
      (text.map Char.toLower) = (0, text.map Char.toLower) := by
    rw [phraseLoop_eq, hocc]
    simp [maskAll]
  have hloop2 : phraseLoop (['g', 'o', 'o', 'd', ' ', 't', 'a', 's', 't',
      'e']) (-2) (text.map Char.toLower) = (0, text.map Char.toLower) :=
    hloop
  have happ : applyPhrases PHRASE_SENTIMENT (text.map Char.toLower) =
      (0, text.map Char.toLower) := by
    simp [applyPhrases, PHRASE_SENTIMENT, hloop2]
  have hall : ∀ tok ∈ _tokenize (text.map Char.toLower),
      tok ∉ NEGATIONS ∧ tok ≠ "but".toList :=
    fun tok ht => ⟨hneg tok ht, hbut tok ht⟩
  have hscore : computeScore text =
      (((_tokenize (text.map Char.toLower)).countP
          fun t => decide (t ∈ POSITIVE_WORDS)) : Int) -
      (((_tokenize (text.map Char.toLower)).countP
          fun t => decide (t ∈ NEGATIVE_WORDS)) : Int) := by
    unfold computeScore computeScoreWith
    dsimp only
    rw [happ]
    dsimp only
    rw [scoreTokens_plain (_tokenize (text.map Char.toLower)) hall 0]
    simp
  refine ⟨hscore, ?_⟩
  unfold analyze_sentiment analyzeWith
  by_cases hblank : (text.isEmpty || text.all Char.isWhitespace) = true
  · rw [if_pos hblank]
    have hws : ∀ c ∈ text, c.isWhitespace = true := by
      have h2 : text = [] ∨ ∀ c ∈ text, c.isWhitespace = true := by
        simpa using hblank
      rcases h2 with rfl | h2
      · intro c hc; cases hc
      · exact h2
    have hzero : computeScore text = 0 := by
      rw [hscore, tokenize_whitespace hws]
      simp
    rw [hzero]
    simp [labelOf]
  · rw [if_neg hblank]
    rfl

/-- Witness for C5: "the food was fresh and tasty" has two positive tokens,
no negative token, no marker, no "but", and no phrase occurrence. -/
theorem C5_plain_score_witness :
    computeScore ("the food was fresh and tasty".toList) = 2 - 0 ∧
    analyze_sentiment ("the food was fresh and tasty".toList) =
      labelOf (computeScore ("the food was fresh and tasty".toList)) := by
  have h := C5_plain_score ("the food was fresh and tasty".toList)
    (by decide) (by decide) (by decide)
  constructor
  · rw [h.1]
    decide
  · exact h.2

/-! ## The tokenizer against the run splitter -/

/-- Emitting one finished run is filtering its (at most one) match in front
of the rest. -/
lemma emitRun_filterMap (acc : List Char) (rest : List (List Char)) :
    emitRun acc rest =
      ((if acc.isEmpty then [] else [acc.reverse]).filterMap tokOfRun)
        ++ rest := by
  by_cases he : acc = []
  · subst he
    simp [emitRun]
  · rw [if_neg (by simpa using he)]
    by_cases ha : acc.reverse.any isWordChar = true
    · have hto : tokOfRun acc.reverse = some (trimApos acc.reverse) := by
        unfold tokOfRun
        rw [if_pos ha]
      unfold emitRun
      rw [if_pos ha, List.filterMap_cons, hto]
      rfl
    · have hto : tokOfRun acc.reverse = none := by
        unfold tokOfRun
        rw [if_neg ha]
      unfold emitRun
      rw [if_neg ha, List.filterMap_cons, hto]
      rfl

/-- The tokenizing scan is the run splitter followed by per-run matching. -/
lemma tokScan_eq (l : List Char) : ∀ acc : List Char,
    tokScan acc l = (runScan acc l).filterMap tokOfRun := by
  induction l with
  | nil =>
    intro acc
    rw [tokScan, runScan, emitRun_filterMap]
    simp
  | cons c cs ih =>
    intro acc
    rw [tokScan, runScan]
    by_cases hc : isTokChar c = true
    · rw [if_pos hc, if_pos hc]
      exact ih (c :: acc)
    · rw [if_neg hc, if_neg hc]
      rw [emitRun_filterMap, ih []]
      by_cases he : acc.isEmpty = true
      · rw [if_pos he, if_pos he]
        simp
      · rw [if_neg he, if_neg he]
        cases hto : tokOfRun acc.reverse with
        | none => simp [List.filterMap_cons, hto]
        | some tk => simp [List.filterMap_cons, hto]

/-- Every character of every maximal run is a token character. -/
lemma runScan_chars : ∀ (l acc : List Char),
    (∀ c ∈ acc, isTokChar c = true) →
    ∀ run ∈ runScan acc l, ∀ c ∈ run, isTokChar c = true := by
  intro l
  induction l with
  | nil =>
    intro acc hacc run hrun c hc
    rw [runScan] at hrun
    split at hrun
    · cases hrun
    · rcases List.mem_cons.mp hrun with rfl | h2
      · exact hacc c (List.mem_reverse.mp hc)
      · cases h2
  | cons c0 cs ih =>
    intro acc hacc run hrun c hc
    rw [runScan] at hrun
    by_cases hc0 : isTokChar c0 = true
    · rw [if_pos hc0] at hrun
      have hacc2 : ∀ x ∈ c0 :: acc, isTokChar x = true := by
        intro x hx
        rcases List.mem_cons.mp hx with rfl | hx2
        · exact hc0
        · exact hacc x hx2
      exact ih (c0 :: acc) hacc2 run hrun c hc
    · rw [if_neg hc0] at hrun
      by_cases he : acc.isEmpty = true
      · rw [if_pos he] at hrun
        exact ih [] (by simp) run hrun c hc
      · rw [if_neg he] at hrun
        rcases List.mem_cons.mp hrun with rfl | h2
        · exact hacc c (List.mem_reverse.mp hc)
        · exact ih [] (by simp) run h2 c hc

/-- Trimming only removes characters: the trimmed run is carved out of the
original one. -/
lemma trimApos_subset {run : List Char} {c : Char}
    (h : c ∈ trimApos run) : c ∈ run := by
  unfold trimApos at h
  rw [List.mem_reverse] at h
  have h2 := (List.dropWhile_suffix (fun x => !isWordChar x)).subset h
  rw [List.mem_reverse] at h2
  exact (List.dropWhile_suffix (fun x => !isWordChar x)).subset h2

/-- Dropping the leading non-word characters of a list that contains a word
character exposes a word character at the head. -/
lemma head_dropWhile_word : ∀ l : List Char, l.any isWordChar = true →
    ∃ c rest, l.dropWhile (fun x => !isWordChar x) = c :: rest ∧
      isWordChar c = true := by
  intro l
  induction l with
  | nil => intro h; simp at h
  | cons c cs ih =>
    intro h
    by_cases hc : isWordChar c = true
    · exact ⟨c, cs, by simp [List.dropWhile_cons, hc], hc⟩
    · have hcf : isWordChar c = false := by simpa using hc
      have hcs : cs.any isWordChar = true := by
        rcases List.any_eq_true.mp h with ⟨x, hx, hxw⟩
        rcases List.mem_cons.mp hx with rfl | hx2
        · rw [hcf] at hxw; cases hxw
        · exact List.any_eq_true.mpr ⟨x, hx2, hxw⟩
      obtain ⟨c2, rest, heq, hw⟩ := ih hcs
      exact ⟨c2, rest, by simp [List.dropWhile_cons, hcf, heq], hw⟩

/-- A run containing a word character is trimmed to a token that starts and
ends with a word character. -/
lemma trimApos_shape {run : List Char} (h : run.any isWordChar = true) :
    (∃ c, (trimApos run).head? = some c ∧ isWordChar c = true) ∧
    (∃ c, (trimApos run).getLast? = some c ∧ isWordChar c = true) := by
  obtain ⟨c1, rest1, hA, hw1⟩ := head_dropWhile_word run h
  have hAany : (run.dropWhile (fun x => !isWordChar x)).reverse.any
      isWordChar = true := by
    rw [hA]
    exact List.any_eq_true.mpr ⟨c1, by simp, hw1⟩
  obtain ⟨c2, rest2, hB, hw2⟩ :=
    head_dropWhile_word (run.dropWhile (fun x => !isWordChar x)).reverse
      hAany
  have htrim : trimApos run =
      ((run.dropWhile (fun x => !isWordChar x)).reverse.dropWhile
        (fun x => !isWordChar x)).reverse := rfl
  obtain ⟨t, ht⟩ :=
    List.dropWhile_suffix (l := (run.dropWhile
      (fun x => !isWordChar x)).reverse) (fun x => !isWordChar x)
  constructor
  · refine ⟨c1, ?_, hw1⟩
    rw [htrim, List.head?_reverse, hB]
    have h1 : (run.dropWhile (fun x => !isWordChar x)).reverse.getLast? =
        some c1 := by
      rw [List.getLast?_reverse, hA]
      rfl
    rw [← ht, hB, List.getLast?_append_cons] at h1
    exact h1
  · refine ⟨c2, ?_, hw2⟩
    rw [htrim, List.getLast?_reverse, hB]
    rfl

/-- The tokenizer of a text with no token character (after lowercasing the
raw characters) is empty. -/
lemma tokenize_ws {text : List Char}
    (h : ∀ c ∈ text, c.isWhitespace = true) : _tokenize text = [] := by
  unfold _tokenize
  apply tokScan_nil
  intro c2 hc2
  simp only [List.mem_map] at hc2
  obtain ⟨c1, hc1, rfl⟩ := hc2
  rw [whitespace_toLower (h c1 hc1)]
  exact whitespace_not_tok (h c1 hc1)

/-- C7 counterexample: on the input apostrophe-a, the only maximal run of
word characters and apostrophes is the whole input, but the tokenizer emits
only "a" — the emitted tokens are not the maximal runs. -/
theorem C7_counterexample :
    _tokenize ([apos] ++ "a".toList) = ["a".toList] ∧
    specMaximalRuns ([apos] ++ "a".toList) = [[apos] ++ "a".toList] ∧
    ¬ _tokenize ([apos] ++ "a".toList) =
        specMaximalRuns ([apos] ++ "a".toList) := by decide

/-- C7 (amended): the tokenizer lowercases the whole input and emits, for
each maximal run of word characters and apostrophes that contains at least
one word character, the segment of that run from its first to its last word
character, in order (runs of apostrophes alone emit nothing); separator
characters never appear inside a token; whitespace-only and empty inputs
yield zero tokens. -/
theorem C7_tokenizer (text : List Char) :
    _tokenize text = (specMaximalRuns text).filterMap tokOfRun ∧
    (∀ tok ∈ _tokenize text, ∀ c ∈ tok, isTokChar c = true) ∧
    ((∀ c ∈ text, c.isWhitespace = true) → _tokenize text = []) := by
  refine ⟨tokScan_eq (text.map Char.toLower) [], ?_, tokenize_ws⟩
  intro tok htok c hc
  have h2 : tok ∈ (runScan [] (text.map Char.toLower)).filterMap
      tokOfRun := by
    unfold _tokenize at htok
    rwa [tokScan_eq (text.map Char.toLower) []] at htok
  obtain ⟨run, hrun, hto⟩ := List.mem_filterMap.mp h2
  unfold tokOfRun at hto
  by_cases ha : run.any isWordChar = true
  · rw [if_pos ha] at hto
    obtain rfl := Option.some.inj hto
    exact runScan_chars (text.map Char.toLower) [] (by simp) run hrun c
      (trimApos_subset hc)
  · rw [if_neg ha] at hto
    cases hto

/-- Witness for C7 at concrete inputs: the contraction and the two-space
input. -/
theorem C7_tokenizer_witness :
    _tokenize ("don".toList ++ [apos] ++ "t go".toList) =
      (specMaximalRuns ("don".toList ++ [apos] ++ "t go".toList)).filterMap
        tokOfRun ∧
    isTokChar 'd' = true ∧
    _tokenize ("  ".toList) = [] := by
  refine ⟨(C7_tokenizer ("don".toList ++ [apos] ++ "t go".toList)).1, ?_,
    (C7_tokenizer ("  ".toList)).2.2 (by decide)⟩
  exact (C7_tokenizer ("don".toList ++ [apos] ++ "t go".toList)).2.1
    ("don".toList ++ [apos] ++ "t".toList) (by decide) 'd' (by decide)

/-- C10 counterexample: the token n-apostrophe-t is reachable — standalone
"n't" in the input is emitted exactly as that token, it triggers the
negation entry, and removing the entry changes the returned label. -/
theorem C10_counterexample :
    ntToken ∈ _tokenize (ntToken ++ " good".toList) ∧
    analyze_sentiment (ntToken ++ " good".toList) = "negative" ∧
    analyzeWith (NEGATIONS.erase ntToken) (ntToken ++ " good".toList) =
      "positive" := by decide

/-- C10 (amended): every emitted token begins and ends with a word character
(never an apostrophe); nevertheless the negation entry n-apostrophe-t is
reachable, because that three-character sequence begins and ends with word
characters: standalone it tokenizes to exactly itself, and removing the
entry from the negation set changes the label of "n't good". -/
theorem C10_token_shape (text : List Char) :
    (∀ tok ∈ _tokenize text,
      (∃ c, tok.head? = some c ∧ isWordChar c = true) ∧
      (∃ c, tok.getLast? = some c ∧ isWordChar c = true)) ∧
    _tokenize ntToken = [ntToken] ∧
    analyze_sentiment (ntToken ++ " good".toList) ≠
      analyzeWith (NEGATIONS.erase ntToken) (ntToken ++ " good".toList) := by
  refine ⟨?_, by decide, by decide⟩
  intro tok htok
  have h2 : tok ∈ (runScan [] (text.map Char.toLower)).filterMap
      tokOfRun := by
    unfold _tokenize at htok
    rwa [tokScan_eq (text.map Char.toLower) []] at htok
  obtain ⟨run, hrun, hto⟩ := List.mem_filterMap.mp h2
  unfold tokOfRun at hto
  by_cases ha : run.any isWordChar = true
  · rw [if_pos ha] at hto
    obtain rfl := Option.some.inj hto
    exact trimApos_shape ha
  · rw [if_neg ha] at hto
    cases hto

/-- Witness for C10: the token of standalone "n't" begins with the word
character n and ends with the word character t. -/
theorem C10_token_shape_witness :
    (∃ c, (ntToken).head? = some c ∧ isWordChar c = true) ∧
    (∃ c, (ntToken).getLast? = some c ∧ isWordChar c = true) :=
  (C10_token_shape ntToken).1 ntToken (by decide)

end Sentiment
